import Mathlib

/-!
Shallow embedding of the data-access layer in `src/lib/supabase.ts`.

The store behind the managed database client is modelled as a list of rows
per table (`stock_queries` as `List StockRow`, `session` as
`List SessionRow`).  Each exported function of the source file becomes a
pure Lean function over that store, translated guard by guard:

* JS truthiness tests on optional parameters (`if (filters?.x)`) become
  explicit tests for "present and nonempty / nonzero";
* the query-builder calls `.eq`, `.gte`, `.lte`, `.in` become row
  predicates; `.order` calls accumulate a list of order clauses which is
  interpreted as one lexicographic comparator (PostgREST `ORDER BY`);
* `.limit(n)` sets a limit parameter and `.range(a, b)` sets the offset to
  `a` and overrides the limit with `b - a + 1` (supabase-js semantics);
  both are applied after filtering and ordering;
* `count: "exact"` is the number of rows passing the filters, computed
  before pagination;
* `.single()` on zero rows is an error, which the callers in this file
  turn into an absent value.

Dates are ISO date strings compared lexicographically, as in the store.
Numeric analysis payload values are modelled as integers; no claim computes
with them.  Rows carry the database-assigned `id` used by the update path.
-/

namespace Adimology

/-- Direction of a sort, mirroring the TS union type of `sortOrder`. -/
inductive SortOrder where
  | asc
  | desc
deriving DecidableEq, Repr

/-- One row of the `stock_queries` table: the identifying fields, the
numeric analysis payload, the status pair, and the retroactively patched
`real_harga`, plus the database-assigned `id`. -/
structure StockRow where
  id : Nat
  emiten : String
  from_date : String
  to_date : Option String := none
  sector : Option String := none
  bandar : Option String := none
  barang_bandar : Option Int := none
  rata_rata_bandar : Option Int := none
  harga : Option Int := none
  ara : Option Int := none
  arb : Option Int := none
  fraksi : Option Int := none
  total_bid : Option Int := none
  total_offer : Option Int := none
  total_papan : Option Int := none
  rata_rata_bid_ofer : Option Int := none
  a : Option Int := none
  p : Option Int := none
  target_realistis : Option Int := none
  target_max : Option Int := none
  status : Option String := none
  error_message : Option String := none
  real_harga : Option Int := none
deriving DecidableEq, Repr

/-- One row of the `session` table. -/
structure SessionRow where
  key : String
  value : String
  updated_at : String
deriving DecidableEq, Repr

/-- The optional filter object accepted by `getWatchlistAnalysisHistory`.
A call without a filter object is a call with every field absent. -/
structure HistoryFilters where
  emiten : Option String := none
  sector : Option String := none
  fromDate : Option String := none
  toDate : Option String := none
  status : Option String := none
  limit : Option Nat := none
  offset : Option Nat := none
  sortBy : Option String := none
  sortOrder : Option SortOrder := none
deriving DecidableEq, Repr

/-- JS truthiness of an optional string parameter: present and nonempty. -/
def strTruthy : Option String → Bool
  | some s => s != ""
  | none => false

/-- JS truthiness of an optional number parameter: present and nonzero. -/
def natTruthy : Option Nat → Bool
  | some n => n != 0
  | none => false

/-- Tokeniser worker: collect maximal runs of non-whitespace characters;
`acc` holds the current run in reverse. -/
def splitWsAux : List Char → List Char → List String
  | [], acc => if acc.isEmpty then [] else [String.mk acc.reverse]
  | c :: cs, acc =>
    if c.isWhitespace then
      (if acc.isEmpty then [] else [String.mk acc.reverse]) ++ splitWsAux cs []
    else
      splitWsAux cs (c :: acc)

/-- The token list `filters.emiten.split(/\s+/).filter(Boolean)`: the
maximal nonempty whitespace-free runs of the string, in order, which is
what splitting on whitespace and dropping the empty pieces produces. -/
def splitWs (s : String) : List String :=
  splitWsAux s.data []

/-- Lexicographic strict order on character lists, by Unicode scalar
value.  This is the order the store applies to its text (and ISO date)
columns; it is defined structurally so that it can be evaluated. -/
def charsLt : List Char → List Char → Bool
  | [], [] => false
  | [], _ :: _ => true
  | _ :: _, [] => false
  | a :: as, b :: bs =>
    if a.toNat < b.toNat then true
    else if b.toNat < a.toNat then false
    else charsLt as bs

/-- Lexicographic strict order on strings. -/
def strLt (a b : String) : Bool :=
  charsLt a.data b.data

/-- Lexicographic non-strict order on strings. -/
def strLe (a b : String) : Bool :=
  !(strLt b a)

/-- Does a row pass every filter guard of `getWatchlistAnalysisHistory`
(source lines 150-166)?  Each conjunct mirrors one `if (filters?.x)` guard;
an equality filter on a nullable column only matches non-null values. -/
def matchesFilters (f : HistoryFilters) (r : StockRow) : Bool :=
  (match f.emiten with
   | some s =>
     if s != "" then
       let emitenList := splitWs s
       if emitenList.length > 0 then emitenList.contains r.emiten else true
     else true
   | none => true)
  && (match f.sector with
      | some s => if s != "" then r.sector == some s else true
      | none => true)
  && (match f.fromDate with
      | some d => if d != "" then strLe d r.from_date else true
      | none => true)
  && (match f.toDate with
      | some d => if d != "" then strLe r.from_date d else true
      | none => true)
  && (match f.status with
      | some s => if s != "" then r.status == some s else true
      | none => true)

/-- The resolved sort direction: the requested `sortOrder` defaulted to
`desc`, as a Boolean `ascending` flag. -/
def ascOf (f : HistoryFilters) : Bool :=
  match f.sortOrder.getD SortOrder.desc with
  | SortOrder.asc => true
  | SortOrder.desc => false

/-- The list of `(column, ascending)` order clauses accumulated by the
sort-resolution block (source lines 132-148), including the defaults
`sortBy = "from_date"` and `sortOrder = "desc"`. -/
def orderClauses (f : HistoryFilters) : List (String × Bool) :=
  let sortBy := if strTruthy f.sortBy then f.sortBy.getD "" else "from_date"
  let asc : Bool := ascOf f
  if sortBy == "combined" then
    [("from_date", asc), ("emiten", asc)]
  else if sortBy == "emiten" then
    [("emiten", asc), ("from_date", true)]
  else
    [(sortBy, asc)]

/-- Three-way comparison of strings through the lexicographic order. -/
def cmpStr (a b : String) : Ordering :=
  if strLt a b then Ordering.lt
  else if strLt b a then Ordering.gt
  else Ordering.eq

/-- The sortable value of a named column of a row.  Only the columns the
specified fragment ever sorts on are interpreted; any other column name is
outside the modelled fragment and yields no key. -/
def colKey (c : String) (r : StockRow) : Option String :=
  if c == "emiten" then some r.emiten
  else if c == "from_date" then some r.from_date
  else none

/-- Three-way comparison of two rows on a named column. -/
def colCmp (c : String) (a b : StockRow) : Ordering :=
  match colKey c a, colKey c b with
  | some x, some y => cmpStr x y
  | _, _ => Ordering.eq

/-- Apply a sort direction to a comparison result. -/
def dirCmp (asc : Bool) (o : Ordering) : Ordering :=
  if asc then o else o.swap

/-- Lexicographic comparison of two rows under a list of order clauses:
the first clause decides unless it ties, as in a SQL `ORDER BY` list. -/
def clausesCmp : List (String × Bool) → StockRow → StockRow → Ordering
  | [], _, _ => Ordering.eq
  | (c, asc) :: rest, a, b =>
    match dirCmp asc (colCmp c a b) with
    | Ordering.eq => clausesCmp rest a b
    | o => o

/-- `a` may come before `b` in a result ordered by the given clauses. -/
def clausesLe (cs : List (String × Bool)) (a b : StockRow) : Bool :=
  clausesCmp cs a b != Ordering.gt

/-- The accumulated pagination parameters `(limit?, offset)` (source lines
168-173): `.limit(n)` sets the limit; `.range(from, to)` sets the offset
and overrides the limit with the window size `to - from + 1`. -/
def pageParams (f : HistoryFilters) : Option Nat × Nat :=
  let lim : Option Nat := if natTruthy f.limit then some (f.limit.getD 0) else none
  if natTruthy f.offset then
    let o := f.offset.getD 0
    let hi := o + (if natTruthy f.limit then f.limit.getD 0 else 50) - 1
    (some (hi - o + 1), o)
  else
    (lim, 0)

/-- Apply an optional limit to a row list. -/
def takeOpt : Option Nat → List StockRow → List StockRow
  | none, l => l
  | some n, l => l.take n

/-- Pure model of `getWatchlistAnalysisHistory` on the success path: the
rows of the store passing every filter, ordered by the resolved order
clauses, then windowed by the pagination parameters; paired with the
`count: "exact"` total, which the store computes over the filtered set
before pagination. -/
def getWatchlistAnalysisHistory (store : List StockRow) (f : HistoryFilters) :
    List StockRow × Nat :=
  let filtered := store.filter (matchesFilters f)
  let sorted := List.insertionSort
    (fun a b => clausesLe (orderClauses f) a b = true) filtered
  let lim := (pageParams f).1
  let off := (pageParams f).2
  (takeOpt lim (sorted.drop off), filtered.length)

/-- Comparator of the `order by from_date descending, limit 1` lookups. -/
def fromDateDescLe (a b : StockRow) : Bool :=
  strLe b.from_date a.from_date

/-- Pure model of `getLatestStockQuery`.  `dbFail` injects the underlying
client reporting an error for the request; the source returns an absent
value on any error, including the zero-row error of `.single()`. -/
def getLatestStockQuery (dbFail : Bool) (store : List StockRow) (emiten : String) :
    Option StockRow :=
  if dbFail then none
  else
    match (List.insertionSort (fun a b => fromDateDescLe a b = true)
        (store.filter (fun r =>
          r.emiten == emiten && r.status == some "success"))).take 1 with
    | [] => none
    | r :: _ => some r

/-- The row predicate of the lookup step of `updatePreviousDayRealPrice`:
same ticker, successful, strictly before the current date. -/
def priorPred (em D : String) (r : StockRow) : Bool :=
  r.emiten == em && r.status == some "success" && strLt r.from_date D

/-- Pure model of `updatePreviousDayRealPrice` on the success path of both
store requests: find the most recent successful row for the ticker strictly
before the current date; if none, leave the store unchanged and return the
absent value; otherwise set `real_harga` on the row with the found id and
return the updated rows. -/
def updatePreviousDayRealPrice (store : List StockRow) (em D : String)
    (price : Int) : List StockRow × Option (List StockRow) :=
  match (List.insertionSort (fun a b => fromDateDescLe a b = true)
      (store.filter (priorPred em D))).take 1 with
  | [] => (store, none)
  | r0 :: _ =>
    let store2 := store.map (fun r =>
      if r.id == r0.id then { r with real_harga := some price } else r)
    (store2, some (store2.filter (fun r => r.id == r0.id)))

/-- The upsert shared by `saveStockQuery` and `saveWatchlistAnalysis`:
`onConflict: "from_date,emiten"`.  On conflict the stored row keeps its id
and takes the payload; otherwise the payload row is appended. -/
def upsertStockQuery (store : List StockRow) (row : StockRow) : List StockRow :=
  if store.any (fun r => r.from_date == row.from_date && r.emiten == row.emiten) then
    store.map (fun r =>
      if r.from_date == row.from_date && r.emiten == row.emiten then
        { row with id := r.id }
      else r)
  else
    store ++ [row]

/-- Store effect of `saveStockQuery`: the keyed upsert. -/
def saveStockQuery (store : List StockRow) (row : StockRow) : List StockRow :=
  upsertStockQuery store row

/-- Store effect of `saveWatchlistAnalysis`: the same keyed upsert. -/
def saveWatchlistAnalysis (store : List StockRow) (row : StockRow) : List StockRow :=
  upsertStockQuery store row

/-- Store effect of `upsertSession`: upsert keyed on `key`; `now` is the
timestamp written to `updated_at`. -/
def upsertSession (store : List SessionRow) (k v now : String) : List SessionRow :=
  let row : SessionRow := { key := k, value := v, updated_at := now }
  if store.any (fun r => r.key == k) then
    store.map (fun r => if r.key == k then row else r)
  else
    store ++ [row]

/-- A store-client error object (code and message). -/
structure DbError where
  code : String
  message : String
deriving DecidableEq, Repr

/-- What a write helper does once the store client has answered: whether it
writes a console error log, and what it returns or throws. -/
structure WriteOutcome (α : Type) where
  logged : Bool
  result : Except DbError α

/-- Control flow of `saveStockQuery` after the upsert answers (source lines
32-43): on error, log and re-throw; otherwise return the rows. -/
def saveStockQueryOutcome (resp : Except DbError (List StockRow)) :
    WriteOutcome (List StockRow) :=
  match resp with
  | Except.error e => { logged := true, result := Except.error e }
  | Except.ok rows => { logged := false, result := Except.ok rows }

/-- Control flow of `saveWatchlistAnalysis` after the upsert answers
(source lines 101-112): on error, log and re-throw. -/
def saveWatchlistAnalysisOutcome (resp : Except DbError (List StockRow)) :
    WriteOutcome (List StockRow) :=
  match resp with
  | Except.error e => { logged := true, result := Except.error e }
  | Except.ok rows => { logged := false, result := Except.ok rows }

/-- Control flow of `upsertSession` after the upsert answers (source lines
62-73): on error, re-throw without logging. -/
def upsertSessionOutcome (resp : Except DbError (List SessionRow)) :
    WriteOutcome (List SessionRow) :=
  match resp with
  | Except.error e => { logged := false, result := Except.error e }
  | Except.ok rows => { logged := false, result := Except.ok rows }

/-- Control flow of the update step of `updatePreviousDayRealPrice` (source
lines 225-235): on error, log, do not re-throw, and return the data value,
which is absent exactly when the update errored. -/
def updateRealPriceStepOutcome (resp : Except DbError (List StockRow)) :
    WriteOutcome (Option (List StockRow)) :=
  match resp with
  | Except.error _ => { logged := true, result := Except.ok none }
  | Except.ok rows => { logged := false, result := Except.ok (some rows) }

/-- The composite natural key of a stock row. -/
def rowKey (r : StockRow) : String × String :=
  (r.emiten, r.from_date)

/-- The store invariant: at most one stock row per (emiten, from_date). -/
def StockKeysUnique (store : List StockRow) : Prop :=
  (store.map rowKey).Nodup

/-- The store invariant: at most one session row per key. -/
def SessionKeysUnique (store : List SessionRow) : Prop :=
  (store.map SessionRow.key).Nodup

/-- Uniqueness of the database-assigned row ids. -/
def IdsUnique (store : List StockRow) : Prop :=
  (store.map StockRow.id).Nodup

/-- Strict comparison of two strings in a given direction. -/
def dirLtP : Bool → String → String → Prop
  | true, x, y => strLt x y = true
  | false, x, y => strLt y x = true

/-- Non-strict comparison of two strings in a given direction. -/
def dirLeP : Bool → String → String → Prop
  | true, x, y => strLe x y = true
  | false, x, y => strLe y x = true

/-- A stock row fixture with the identifying fields and status set. -/
def mkRow (id : Nat) (em fd : String) (st : Option String := none) : StockRow :=
  { id := id, emiten := em, from_date := fd, status := st }

/-- Two tickers times two dates, matching the sort fixture the spec asks for. -/
def demoStore : List StockRow :=
  [mkRow 0 "BBCA" "2024-01-02", mkRow 1 "ADRO" "2024-01-01",
   mkRow 2 "BBCA" "2024-01-01", mkRow 3 "ADRO" "2024-01-02"]

/-- A store with 51 rows, one more than the default pagination window. -/
def store51 : List StockRow :=
  (List.range 51).map (fun i => mkRow i "AAAA" "2024-01-01")

/-- Successful rows for two tickers, two dates for the first. -/
def patchStore : List StockRow :=
  [mkRow 0 "BBCA" "2024-01-01" (some "success"),
   mkRow 1 "BBCA" "2024-01-02" (some "success"),
   mkRow 2 "ADRO" "2024-01-01" (some "success")]

/-- A one-entry session table fixture. -/
def demoSess : List SessionRow :=
  [{ key := "last_run", value := "2024-01-01", updated_at := "2024-01-01T00:00:00Z" }]

/-- A store-client error fixture. -/
def bootErr : DbError :=
  { code := "500", message := "db down" }

theorem charsLt_irrefl : ∀ l : List Char, charsLt l l = false
  | [] => rfl
  | a :: as => by
    simp only [charsLt, Nat.lt_irrefl, if_false]
    exact charsLt_irrefl as

theorem charsLt_asymm : ∀ l1 l2 : List Char,
    charsLt l1 l2 = true → charsLt l2 l1 = false
  | [], [], h => by simp [charsLt] at h
  | [], _ :: _, _ => rfl
  | _ :: _, [], h => by simp [charsLt] at h
  | a :: as, b :: bs, h => by
    simp only [charsLt] at h ⊢
    rcases Nat.lt_trichotomy a.toNat b.toNat with hc | hc | hc
    · simp [hc, Nat.lt_asymm hc]
    · simp only [hc, Nat.lt_irrefl, if_false] at h ⊢
      exact charsLt_asymm as bs h
    · simp [hc, Nat.lt_asymm hc] at h

theorem charsLt_trans : ∀ l1 l2 l3 : List Char,
    charsLt l1 l2 = true → charsLt l2 l3 = true → charsLt l1 l3 = true
  | [], [], _, h1, _ => by simp [charsLt] at h1
  | [], _ :: _, [], _, h2 => by simp [charsLt] at h2
  | [], _ :: _, _ :: _, _, _ => rfl
  | _ :: _, [], _, h1, _ => by simp [charsLt] at h1
  | _ :: _, _ :: _, [], _, h2 => by simp [charsLt] at h2
  | a :: as, b :: bs, c :: cs, h1, h2 => by
    simp only [charsLt] at h1 h2 ⊢
    rcases Nat.lt_trichotomy a.toNat b.toNat with hab | hab | hab
    · rcases Nat.lt_trichotomy b.toNat c.toNat with hbc | hbc | hbc
      · simp [Nat.lt_trans hab hbc]
      · simp [hbc ▸ hab]
      · simp [Nat.lt_asymm hbc, hbc] at h2
    · rcases Nat.lt_trichotomy b.toNat c.toNat with hbc | hbc | hbc
      · simp [hab ▸ hbc]
      · simp only [hab, hbc, Nat.lt_irrefl, if_false] at h1 h2 ⊢
        exact charsLt_trans as bs cs h1 h2
      · simp [Nat.lt_asymm hbc, hbc] at h2
    · simp [Nat.lt_asymm hab, hab] at h1

theorem char_eq_of_toNat_eq {a b : Char} (h : a.toNat = b.toNat) : a = b :=
  Char.eq_of_val_eq (UInt32.eq_of_toBitVec_eq (BitVec.eq_of_toNat_eq h))

theorem charsLt_eq_of_not : ∀ l1 l2 : List Char,
    charsLt l1 l2 = false → charsLt l2 l1 = false → l1 = l2
  | [], [], _, _ => rfl
  | [], _ :: _, h1, _ => by simp [charsLt] at h1
  | _ :: _, [], _, h2 => by simp [charsLt] at h2
  | a :: as, b :: bs, h1, h2 => by
    simp only [charsLt] at h1 h2
    rcases Nat.lt_trichotomy a.toNat b.toNat with hc | hc | hc
    · simp [hc] at h1
    · simp only [hc, Nat.lt_irrefl, if_false] at h1 h2
      rw [char_eq_of_toNat_eq hc, charsLt_eq_of_not as bs h1 h2]
    · simp [hc] at h2

theorem string_data_inj : ∀ {a b : String}, a.data = b.data → a = b
  | ⟨_⟩, ⟨_⟩, h => congrArg String.mk (by simpa using h)

theorem strLt_irrefl (a : String) : strLt a a = false :=
  charsLt_irrefl a.data

theorem strLt_asymm {a b : String} (h : strLt a b = true) : strLt b a = false :=
  charsLt_asymm a.data b.data h

theorem strLt_trans {a b c : String} (h1 : strLt a b = true)
    (h2 : strLt b c = true) : strLt a c = true :=
  charsLt_trans a.data b.data c.data h1 h2

theorem str_eq_of_not_lt {a b : String} (h1 : strLt a b = false)
    (h2 : strLt b a = false) : a = b :=
  string_data_inj (charsLt_eq_of_not a.data b.data h1 h2)

theorem strLt_ne {a b : String} (h : strLt a b = true) : a ≠ b := by
  intro e
  rw [e, strLt_irrefl] at h
  cases h

theorem strLe_refl (a : String) : strLe a a = true := by
  simp [strLe, strLt_irrefl]

theorem strLe_of_lt {a b : String} (h : strLt a b = true) : strLe a b = true := by
  simp [strLe, strLt_asymm h]

theorem strLe_of_eq {a b : String} (h : a = b) : strLe a b = true := by
  rw [h]
  exact strLe_refl b

theorem not_strLe_of_lt {a b : String} (h : strLt a b = true) : strLe b a = false := by
  simp [strLe, h]

theorem strLe_trans {a b c : String} (h1 : strLe a b = true)
    (h2 : strLe b c = true) : strLe a c = true := by
  simp only [strLe, Bool.not_eq_true'] at h1 h2 ⊢
  cases hca : strLt c a
  · rfl
  · cases hbc : strLt b c
    · rw [str_eq_of_not_lt hbc h2] at h1
      rw [hca] at h1
      exact h1
    · rw [strLt_trans hbc hca] at h1
      exact h1

theorem strLe_total (a b : String) : strLe a b = true ∨ strLe b a = true := by
  cases h : strLt b a
  · exact Or.inl (by simp [strLe, h])
  · exact Or.inr (by simp [strLe, strLt_asymm h])

theorem cmpStr_of_lt {a b : String} (h : strLt a b = true) :
    cmpStr a b = Ordering.lt := by
  unfold cmpStr
  rw [h]
  rfl

theorem cmpStr_of_gt {a b : String} (h1 : strLt a b = false)
    (h2 : strLt b a = true) : cmpStr a b = Ordering.gt := by
  unfold cmpStr
  rw [h1, h2]
  rfl

theorem cmpStr_of_eq {a b : String} (h1 : strLt a b = false)
    (h2 : strLt b a = false) : cmpStr a b = Ordering.eq := by
  unfold cmpStr
  rw [h1, h2]
  rfl

theorem colCmp_emiten (a b : StockRow) :
    colCmp "emiten" a b = cmpStr a.emiten b.emiten := rfl

theorem colCmp_from_date (a b : StockRow) :
    colCmp "from_date" a b = cmpStr a.from_date b.from_date := rfl

theorem clausesCmp_cons (c : String) (asc : Bool) (rest : List (String × Bool))
    (a b : StockRow) :
    clausesCmp ((c, asc) :: rest) a b =
      (dirCmp asc (colCmp c a b)).then (clausesCmp rest a b) := by
  cases h : dirCmp asc (colCmp c a b) <;> simp [clausesCmp, h, Ordering.then]

theorem dirCmp_eq (asc : Bool) : dirCmp asc Ordering.eq = Ordering.eq := by
  cases asc <;> rfl

/-- The one-clause comparator accepts exactly the directed non-strict
order on the key. -/
theorem dirLe_bne_iff (asc : Bool) (x y : String) :
    (dirCmp asc (cmpStr x y) != Ordering.gt) = true ↔ dirLeP asc x y := by
  cases h1 : strLt x y
  · cases h2 : strLt y x
    · have e := str_eq_of_not_lt h1 h2
      rw [cmpStr_of_eq h1 h2, dirCmp_eq]
      refine iff_of_true rfl ?_
      cases asc
      · exact strLe_of_eq e.symm
      · exact strLe_of_eq e
    · rw [cmpStr_of_gt h1 h2]
      cases asc
      · rw [show (dirCmp false Ordering.gt != Ordering.gt) = true from rfl]
        exact iff_of_true rfl (strLe_of_lt h2)
      · rw [show (dirCmp true Ordering.gt != Ordering.gt) = false from rfl]
        exact iff_of_false (by simp) (by simp [dirLeP, not_strLe_of_lt h2])
  · rw [cmpStr_of_lt h1]
    cases asc
    · rw [show (dirCmp false Ordering.lt != Ordering.gt) = false from rfl]
      exact iff_of_false (by simp) (by simp [dirLeP, not_strLe_of_lt h1])
    · rw [show (dirCmp true Ordering.lt != Ordering.gt) = true from rfl]
      exact iff_of_true rfl (strLe_of_lt h1)

/-- Characterisation of the lexicographic two-clause comparator in terms of
the order on the column keys. -/
theorem dirPair_le_iff (asc1 asc2 : Bool) (x1 y1 x2 y2 : String) :
    ((dirCmp asc1 (cmpStr x1 y1)).then (dirCmp asc2 (cmpStr x2 y2)) != Ordering.gt) = true ↔
      (dirLtP asc1 x1 y1 ∨ (x1 = y1 ∧ dirLeP asc2 x2 y2)) := by
  cases h1 : strLt x1 y1
  · cases h2 : strLt y1 x1
    · have e := str_eq_of_not_lt h1 h2
      rw [cmpStr_of_eq h1 h2, dirCmp_eq,
        show (Ordering.eq.then (dirCmp asc2 (cmpStr x2 y2))) =
          dirCmp asc2 (cmpStr x2 y2) from rfl, dirLe_bne_iff]
      constructor
      · intro hle
        exact Or.inr ⟨e, hle⟩
      · rintro (hd | ⟨-, hle⟩)
        · exfalso
          cases asc1
          · exact absurd hd (by simp [dirLtP, h2])
          · exact absurd hd (by simp [dirLtP, h1])
        · exact hle
    · rw [cmpStr_of_gt h1 h2]
      cases asc1
      · rw [show ((dirCmp false Ordering.gt).then (dirCmp asc2 (cmpStr x2 y2)) !=
            Ordering.gt) = true from rfl]
        exact iff_of_true rfl (Or.inl h2)
      · rw [show ((dirCmp true Ordering.gt).then (dirCmp asc2 (cmpStr x2 y2)) !=
            Ordering.gt) = false from rfl]
        refine iff_of_false (by simp) ?_
        rintro (hd | ⟨e1, -⟩)
        · exact absurd hd (by simp [dirLtP, h1])
        · exact strLt_ne h2 e1.symm
  · rw [cmpStr_of_lt h1]
    cases asc1
    · rw [show ((dirCmp false Ordering.lt).then (dirCmp asc2 (cmpStr x2 y2)) !=
          Ordering.gt) = false from rfl]
      refine iff_of_false (by simp) ?_
      rintro (hd | ⟨e1, -⟩)
      · exact absurd hd (by simp [dirLtP, strLt_asymm h1])
      · exact strLt_ne h1 e1
    · rw [show ((dirCmp true Ordering.lt).then (dirCmp asc2 (cmpStr x2 y2)) !=
          Ordering.gt) = true from rfl]
      exact iff_of_true rfl (Or.inl h1)

/-- Transitivity of the lexicographic pair order. -/
theorem dirPair_trans (asc1 asc2 : Bool) {x1 y1 z1 x2 y2 z2 : String}
    (h1 : dirLtP asc1 x1 y1 ∨ (x1 = y1 ∧ dirLeP asc2 x2 y2))
    (h2 : dirLtP asc1 y1 z1 ∨ (y1 = z1 ∧ dirLeP asc2 y2 z2)) :
    dirLtP asc1 x1 z1 ∨ (x1 = z1 ∧ dirLeP asc2 x2 z2) := by
  cases asc1 <;> cases asc2 <;>
    simp only [dirLtP, dirLeP] at h1 h2 ⊢ <;>
    rcases h1 with h1 | ⟨e1, l1⟩ <;> rcases h2 with h2 | ⟨e2, l2⟩
  · exact Or.inl (strLt_trans h2 h1)
  · exact Or.inl (by rw [← e2]; exact h1)
  · exact Or.inl (by rw [e1]; exact h2)
  · exact Or.inr ⟨e1.trans e2, strLe_trans l2 l1⟩
  · exact Or.inl (strLt_trans h2 h1)
  · exact Or.inl (by rw [← e2]; exact h1)
  · exact Or.inl (by rw [e1]; exact h2)
  · exact Or.inr ⟨e1.trans e2, strLe_trans l1 l2⟩
  · exact Or.inl (strLt_trans h1 h2)
  · exact Or.inl (by rw [← e2]; exact h1)
  · exact Or.inl (by rw [e1]; exact h2)
  · exact Or.inr ⟨e1.trans e2, strLe_trans l2 l1⟩
  · exact Or.inl (strLt_trans h1 h2)
  · exact Or.inl (by rw [← e2]; exact h1)
  · exact Or.inl (by rw [e1]; exact h2)
  · exact Or.inr ⟨e1.trans e2, strLe_trans l1 l2⟩

/-- Totality of the lexicographic pair order. -/
theorem dirPair_total (asc1 asc2 : Bool) (x1 y1 x2 y2 : String) :
    (dirLtP asc1 x1 y1 ∨ (x1 = y1 ∧ dirLeP asc2 x2 y2)) ∨
      (dirLtP asc1 y1 x1 ∨ (y1 = x1 ∧ dirLeP asc2 y2 x2)) := by
  cases h1 : strLt x1 y1
  · cases h2 : strLt y1 x1
    · have e := str_eq_of_not_lt h1 h2
      cases asc2
      · rcases strLe_total x2 y2 with hle | hle
        · exact Or.inr (Or.inr ⟨e.symm, hle⟩)
        · exact Or.inl (Or.inr ⟨e, hle⟩)
      · rcases strLe_total x2 y2 with hle | hle
        · exact Or.inl (Or.inr ⟨e, hle⟩)
        · exact Or.inr (Or.inr ⟨e.symm, hle⟩)
    · cases asc1
      · exact Or.inl (Or.inl h2)
      · exact Or.inr (Or.inl h2)
  · cases asc1
    · exact Or.inr (Or.inl h1)
    · exact Or.inl (Or.inl h1)

/-- The two-clause comparators built for the `combined` and `emiten` sort
modes, characterised through the column keys. -/
theorem clausesLe_pair_iff (c1 c2 : String) (k1 k2 : StockRow → String)
    (asc1 asc2 : Bool) (a b : StockRow)
    (h1 : ∀ x y, colCmp c1 x y = cmpStr (k1 x) (k1 y))
    (h2 : ∀ x y, colCmp c2 x y = cmpStr (k2 x) (k2 y)) :
    (clausesLe [(c1, asc1), (c2, asc2)] a b = true) ↔
      (dirLtP asc1 (k1 a) (k1 b) ∨ (k1 a = k1 b ∧ dirLeP asc2 (k2 a) (k2 b))) := by
  have e : clausesCmp [(c1, asc1), (c2, asc2)] a b =
      (dirCmp asc1 (cmpStr (k1 a) (k1 b))).then (dirCmp asc2 (cmpStr (k2 a) (k2 b))) := by
    rw [clausesCmp_cons, clausesCmp_cons, h1, h2]
    cases dirCmp asc1 (cmpStr (k1 a) (k1 b)) <;>
      cases dirCmp asc2 (cmpStr (k2 a) (k2 b)) <;> rfl
  rw [clausesLe, e]
  exact dirPair_le_iff asc1 asc2 (k1 a) (k1 b) (k2 a) (k2 b)

theorem orderClauses_emiten (f : HistoryFilters) (h : f.sortBy = some "emiten") :
    orderClauses f = [("emiten", ascOf f), ("from_date", true)] := by
  simp [orderClauses, strTruthy, h]

theorem orderClauses_combined (f : HistoryFilters) (h : f.sortBy = some "combined") :
    orderClauses f = [("from_date", ascOf f), ("emiten", ascOf f)] := by
  simp [orderClauses, strTruthy, h]

/-- The returned rows are a sublist of the sorted filtered rows (pagination
only drops and takes). -/
theorem fetch_rows_sublist (store : List StockRow) (f : HistoryFilters) :
    ((getWatchlistAnalysisHistory store f).1).Sublist
      (List.insertionSort (fun a b => clausesLe (orderClauses f) a b = true)
        (store.filter (matchesFilters f))) := by
  unfold getWatchlistAnalysisHistory
  cases hl : (pageParams f).1 with
  | none => exact List.drop_sublist _ _
  | some n => exact (List.take_sublist _ _).trans (List.drop_sublist _ _)

/-- C1: when `sortBy = "emiten"`, the returned rows are ordered primarily
by `emiten` in the requested direction (`sortOrder`, default `desc`) and,
within each equal-`emiten` group, by `from_date` ascending, whatever the
requested direction was. -/
theorem emiten_sort_fixed_tiebreak (store : List StockRow) (f : HistoryFilters)
    (h : f.sortBy = some "emiten") :
    ((getWatchlistAnalysisHistory store f).1).Pairwise (fun a b =>
      dirLtP (ascOf f) a.emiten b.emiten ∨
        (a.emiten = b.emiten ∧ strLe a.from_date b.from_date = true)) := by
  have hiff : ∀ a b : StockRow,
      (clausesLe (orderClauses f) a b = true) ↔
        (dirLtP (ascOf f) a.emiten b.emiten ∨
          (a.emiten = b.emiten ∧ dirLeP true a.from_date b.from_date)) := by
    intro a b
    rw [orderClauses_emiten f h]
    exact clausesLe_pair_iff "emiten" "from_date" StockRow.emiten StockRow.from_date
      (ascOf f) true a b (fun x y => rfl) (fun x y => rfl)
  haveI : IsTrans StockRow (fun a b => clausesLe (orderClauses f) a b = true) := by
    refine ⟨fun a b c hab hbc => ?_⟩
    rw [hiff] at hab hbc ⊢
    exact dirPair_trans (ascOf f) true hab hbc
  haveI : IsTotal StockRow (fun a b => clausesLe (orderClauses f) a b = true) := by
    refine ⟨fun a b => ?_⟩
    rw [hiff, hiff]
    exact dirPair_total (ascOf f) true a.emiten b.emiten a.from_date b.from_date
  have hsorted := List.sorted_insertionSort
    (fun a b => clausesLe (orderClauses f) a b = true) (store.filter (matchesFilters f))
  have hp := List.Pairwise.sublist (fetch_rows_sublist store f) hsorted
  exact hp.imp (fun hab => (hiff _ _).mp hab)

/-- Witness for C1 on the two-tickers-times-two-dates fixture with the
requested direction descending. -/
theorem emiten_sort_fixed_tiebreak_witness :
    ((getWatchlistAnalysisHistory demoStore
        { sortBy := some "emiten", sortOrder := some SortOrder.desc }).1).Pairwise
      (fun a b =>
        dirLtP (ascOf { sortBy := some "emiten", sortOrder := some SortOrder.desc })
            a.emiten b.emiten ∨
          (a.emiten = b.emiten ∧ strLe a.from_date b.from_date = true)) :=
  emiten_sort_fixed_tiebreak demoStore
    { sortBy := some "emiten", sortOrder := some SortOrder.desc } rfl

/-- C4: when `sortBy = "combined"`, the returned rows are ordered primarily
by `from_date` and secondarily by `emiten`, both in the requested direction;
for an ascending request this is the total ascending order on the pair
`(from_date, emiten)`. -/
theorem combined_sort_order (store : List StockRow) (f : HistoryFilters)
    (h : f.sortBy = some "combined") :
    ((getWatchlistAnalysisHistory store f).1).Pairwise (fun a b =>
      dirLtP (ascOf f) a.from_date b.from_date ∨
        (a.from_date = b.from_date ∧ dirLeP (ascOf f) a.emiten b.emiten)) := by
  have hiff : ∀ a b : StockRow,
      (clausesLe (orderClauses f) a b = true) ↔
        (dirLtP (ascOf f) a.from_date b.from_date ∨
          (a.from_date = b.from_date ∧ dirLeP (ascOf f) a.emiten b.emiten)) := by
    intro a b
    rw [orderClauses_combined f h]
    exact clausesLe_pair_iff "from_date" "emiten" StockRow.from_date StockRow.emiten
      (ascOf f) (ascOf f) a b (fun x y => rfl) (fun x y => rfl)
  haveI : IsTrans StockRow (fun a b => clausesLe (orderClauses f) a b = true) := by
    refine ⟨fun a b c hab hbc => ?_⟩
    rw [hiff] at hab hbc ⊢
    exact dirPair_trans (ascOf f) (ascOf f) hab hbc
  haveI : IsTotal StockRow (fun a b => clausesLe (orderClauses f) a b = true) := by
    refine ⟨fun a b => ?_⟩
    rw [hiff, hiff]
    exact dirPair_total (ascOf f) (ascOf f) a.from_date b.from_date a.emiten b.emiten
  have hsorted := List.sorted_insertionSort
    (fun a b => clausesLe (orderClauses f) a b = true) (store.filter (matchesFilters f))
  have hp := List.Pairwise.sublist (fetch_rows_sublist store f) hsorted
  exact hp.imp (fun hab => (hiff _ _).mp hab)

/-- Witness for C4 on the two-tickers-times-two-dates fixture with the
requested direction ascending. -/
theorem combined_sort_order_witness :
    ((getWatchlistAnalysisHistory demoStore
        { sortBy := some "combined", sortOrder := some SortOrder.asc }).1).Pairwise
      (fun a b =>
        dirLtP (ascOf { sortBy := some "combined", sortOrder := some SortOrder.asc })
            a.from_date b.from_date ∨
          (a.from_date = b.from_date ∧
            dirLeP (ascOf { sortBy := some "combined", sortOrder := some SortOrder.asc })
              a.emiten b.emiten)) :=
  combined_sort_order demoStore
    { sortBy := some "combined", sortOrder := some SortOrder.asc } rfl

/-- C2, counterexample: with the offset filter present but zero and no
limit, the truthiness guard in the source skips the range, so on a store with 51
matching rows the call returns all 51 rows instead of the 50-row window
`[0, 49]` the claim promises for every present offset. -/
theorem pagination_offset_zero_counterexample :
    ¬ ((getWatchlistAnalysisHistory store51 { offset := some 0 }).1 =
      (((getWatchlistAnalysisHistory store51 {}).1).drop 0).take 50) := by
  decide

/-- C2 as amended: whenever the offset filter is present and nonzero, the
returned rows are the window starting at `offset` of length `limit` when a
nonzero limit is present and `50` otherwise, cut from the filtered, sorted,
unpaginated result. -/
theorem pagination_window (store : List StockRow) (f : HistoryFilters) (o : Nat)
    (ho : f.offset = some o) (hno : o ≠ 0) :
    (getWatchlistAnalysisHistory store f).1 =
      (((getWatchlistAnalysisHistory store
          { f with limit := none, offset := none }).1).drop o).take
        (if natTruthy f.limit then f.limit.getD 0 else 50) := by
  have hw : (if natTruthy f.limit then f.limit.getD 0 else 50) ≠ 0 := by
    cases hl : f.limit with
    | none => simp [natTruthy]
    | some l =>
      by_cases h0 : l = 0
      · simp [natTruthy, hl, h0]
      · simp [natTruthy, hl, h0]
  have hou : natTruthy f.offset = true := by simp [natTruthy, ho, hno]
  have hpp : pageParams f =
      (some (o + (if natTruthy f.limit then f.limit.getD 0 else 50) - 1 - o + 1), o) := by
    unfold pageParams
    rw [hou, ho]
    simp
  have harith : o + (if natTruthy f.limit then f.limit.getD 0 else 50) - 1 - o + 1 =
      (if natTruthy f.limit then f.limit.getD 0 else 50) := by
    omega
  show takeOpt (pageParams f).1
      ((List.insertionSort (fun a b => clausesLe (orderClauses f) a b = true)
        (store.filter (matchesFilters f))).drop (pageParams f).2) = _
  rw [hpp, harith]
  rfl

/-- Witness for the amended C2: `limit = 10, offset = 20` returns rows
21 to 30 of the unpaginated result. -/
theorem pagination_window_witness :
    (getWatchlistAnalysisHistory store51 { limit := some 10, offset := some 20 }).1 =
      (((getWatchlistAnalysisHistory store51 {}).1).drop 20).take 10 :=
  pagination_window store51 { limit := some 10, offset := some 20 } 20 rfl (by decide)

/-- C3: an emiten filter that tokenises to nothing applies no membership
filter; the whole call behaves as if the filter were absent. -/
theorem whitespace_emiten_filter_noop (store : List StockRow) (f : HistoryFilters)
    (s : String) (he : f.emiten = some s) (hts : splitWs s = []) :
    getWatchlistAnalysisHistory store f =
      getWatchlistAnalysisHistory store { f with emiten := none } := by
  have hm : matchesFilters f = matchesFilters { f with emiten := none } := by
    funext r
    unfold matchesFilters
    rw [he]
    by_cases hs : s = ""
    · subst hs
      rfl
    · simp [hs, hts]
  unfold getWatchlistAnalysisHistory
  rw [hm]
  rfl

/-- Witness for C3: a whitespace-only emiten filter on the fixture store
equals the unfiltered call. -/
theorem whitespace_emiten_filter_noop_witness :
    getWatchlistAnalysisHistory demoStore { emiten := some "  " } =
      getWatchlistAnalysisHistory demoStore {} :=
  whitespace_emiten_filter_noop demoStore { emiten := some "  " } "  " rfl (by decide)

/-- C5: the sector and status filters compose conjunctively before
pagination: a row is returned by the combined unpaginated call exactly when
it is returned by each single-filter unpaginated call. -/
theorem filters_conjunctive (store : List StockRow) (S T : String) (r : StockRow) :
    r ∈ (getWatchlistAnalysisHistory store { sector := some S, status := some T }).1 ↔
      (r ∈ (getWatchlistAnalysisHistory store { sector := some S }).1 ∧
        r ∈ (getWatchlistAnalysisHistory store { status := some T }).1) := by
  have hmem : ∀ (f : HistoryFilters), f.limit = none → f.offset = none →
      (r ∈ (getWatchlistAnalysisHistory store f).1 ↔
        (r ∈ store ∧ matchesFilters f r = true)) := by
    intro f hl ho
    show r ∈ takeOpt (pageParams f).1
        ((List.insertionSort (fun a b => clausesLe (orderClauses f) a b = true)
          (store.filter (matchesFilters f))).drop (pageParams f).2) ↔ _
    have hpp : pageParams f = (none, 0) := by
      unfold pageParams
      rw [hl, ho]
      rfl
    rw [hpp]
    show r ∈ List.insertionSort (fun a b => clausesLe (orderClauses f) a b = true)
        (store.filter (matchesFilters f)) ↔ _
    rw [List.mem_insertionSort, List.mem_filter]
  rw [hmem _ rfl rfl, hmem _ rfl rfl, hmem _ rfl rfl]
  simp only [matchesFilters, Bool.and_eq_true]
  tauto

/-- C10: the returned count is the number of store rows passing the
filters, and equals the row count of the unpaginated call whatever limit
and offset were requested. -/
theorem count_total_independent_of_pagination (store : List StockRow)
    (f : HistoryFilters) :
    (getWatchlistAnalysisHistory store f).2 =
        (store.filter (matchesFilters f)).length ∧
      (getWatchlistAnalysisHistory store f).2 =
        ((getWatchlistAnalysisHistory store
          { f with limit := none, offset := none }).1).length := by
  constructor
  · rfl
  · have h2 : ((getWatchlistAnalysisHistory store
        { f with limit := none, offset := none }).1) =
        List.insertionSort (fun a b => clausesLe (orderClauses f) a b = true)
          (store.filter (matchesFilters f)) := rfl
    rw [h2, List.length_insertionSort]
    rfl

/-- C6, counterexample: on a store error the session upsert re-throws
without logging, and the prior-day update step logs but swallows the error
and returns the absent data, so "logs it and re-raises it" does not hold
of every write operation. -/
theorem write_error_policy_counterexample :
    ¬ ((upsertSessionOutcome (Except.error bootErr)).logged = true ∧
      (updateRealPriceStepOutcome (Except.error bootErr)).result =
        Except.error bootErr) := by
  intro h
  exact absurd h.1 (by decide)

/-- C6 as amended: the two record upserts log and re-raise; the session
upsert re-raises without logging; the prior-day price update step logs the
error but swallows it and returns the absent data value. -/
theorem write_error_policy (e : DbError) :
    saveStockQueryOutcome (Except.error e) =
        { logged := true, result := Except.error e } ∧
      saveWatchlistAnalysisOutcome (Except.error e) =
        { logged := true, result := Except.error e } ∧
      upsertSessionOutcome (Except.error e) =
        { logged := false, result := Except.error e } ∧
      updateRealPriceStepOutcome (Except.error e) =
        { logged := true, result := Except.ok none } :=
  ⟨rfl, rfl, rfl, rfl⟩

/-- The head of the descending-`from_date` sort of the rows passing a
predicate is a store row passing the predicate whose `from_date` is
maximal among all store rows passing the predicate. -/
theorem head_of_descSort_max (p : StockRow → Bool) (store : List StockRow)
    (x : StockRow) (rest : List StockRow)
    (hs : List.insertionSort (fun a b => fromDateDescLe a b = true)
        (store.filter p) = x :: rest) :
    x ∈ store ∧ p x = true ∧
      ∀ r2 ∈ store, p r2 = true → strLe r2.from_date x.from_date = true := by
  haveI : IsTrans StockRow (fun a b => fromDateDescLe a b = true) :=
    ⟨fun a b c hab hbc => strLe_trans hbc hab⟩
  haveI : IsTotal StockRow (fun a b => fromDateDescLe a b = true) :=
    ⟨fun a b => strLe_total _ _⟩
  have hxmem : x ∈ store.filter p := by
    have hx : x ∈ List.insertionSort (fun a b => fromDateDescLe a b = true)
        (store.filter p) := by
      rw [hs]
      exact List.mem_cons_self _ _
    exact (List.mem_insertionSort _).mp hx
  rcases List.mem_filter.mp hxmem with ⟨hxs, hpx⟩
  refine ⟨hxs, hpx, ?_⟩
  intro r2 h2 hp2
  have h2f : r2 ∈ store.filter p := List.mem_filter.mpr ⟨h2, hp2⟩
  have h2s : r2 ∈ x :: rest := by
    rw [← hs]
    exact (List.mem_insertionSort _).mpr h2f
  rcases List.mem_cons.mp h2s with he | hin
  · rw [he]
    exact strLe_refl _
  · have hsorted := List.sorted_insertionSort
      (fun a b => fromDateDescLe a b = true) (store.filter p)
    rw [hs] at hsorted
    exact (List.sorted_cons.mp hsorted).1 r2 hin

/-- C7: on a client error the latest-record lookup answers the absent
value; with no successful row of the ticker it answers the same absent
value, so the two cases are indistinguishable to the caller; and whenever
a successful row of the ticker exists, the lookup does return a row, which
is a successful row of the ticker with the most recent `from_date`. -/
theorem getLatest_success_max_and_absence (store : List StockRow) (em : String) :
    getLatestStockQuery true store em = none ∧
      (store.filter (fun r => r.emiten == em && r.status == some "success") = [] →
        getLatestStockQuery false store em = none) ∧
      (store.filter (fun r => r.emiten == em && r.status == some "success") ≠ [] →
        ∃ r, getLatestStockQuery false store em = some r ∧
          r ∈ store ∧ r.emiten = em ∧ r.status = some "success" ∧
          ∀ r2 ∈ store, r2.emiten = em → r2.status = some "success" →
            strLe r2.from_date r.from_date = true) := by
  refine ⟨rfl, ?_, ?_⟩
  · intro h
    unfold getLatestStockQuery
    rw [h]
    rfl
  · intro hne
    cases hs : List.insertionSort (fun a b => fromDateDescLe a b = true)
        (store.filter (fun r => r.emiten == em && r.status == some "success")) with
    | nil =>
      exfalso
      have h0 := congrArg List.length hs
      rw [List.length_insertionSort] at h0
      simp only [List.length_nil, List.length_eq_zero] at h0
      exact hne h0
    | cons x rest =>
      obtain ⟨hxs, hpx, hmax⟩ := head_of_descSort_max _ store x rest hs
      have hpx2 := hpx
      simp only [Bool.and_eq_true] at hpx2
      refine ⟨x, ?_, hxs, by simpa using hpx2.1, by simpa using hpx2.2, ?_⟩
      · unfold getLatestStockQuery
        rw [hs]
        rfl
      · intro r2 hr2 he2 hst2
        exact hmax r2 hr2 (by simp [he2, hst2])

/-- Witness for C7: the injected-error lookup and the lookup on a store
without successful rows both answer the absent value, and on a store with
successful BBCA rows the lookup does return a most-recent one. -/
theorem getLatest_success_max_and_absence_witness :
    getLatestStockQuery true patchStore "BBCA" = none ∧
      (∃ r, getLatestStockQuery false patchStore "BBCA" = some r ∧
        r ∈ patchStore ∧ r.emiten = "BBCA" ∧ r.status = some "success" ∧
        ∀ r2 ∈ patchStore, r2.emiten = "BBCA" → r2.status = some "success" →
          strLe r2.from_date r.from_date = true) ∧
      getLatestStockQuery false demoStore "BBCA" = none :=
  ⟨(getLatest_success_max_and_absence patchStore "BBCA").1,
    (getLatest_success_max_and_absence patchStore "BBCA").2.2 (by decide),
    (getLatest_success_max_and_absence demoStore "BBCA").2.1 (by decide)⟩

/-- C8: with unique keys and ids, the prior-day patch is a no-op returning
the absent value when no successful row of the ticker predates the given
date; otherwise it rewrites the store so that exactly the single most
recent such row gets `real_harga := price` and every other row, and every
other field, is untouched. -/
theorem patchPriorDay_frame (store : List StockRow) (em D : String) (price : Int)
    (hkeys : StockKeysUnique store) (hids : IdsUnique store) :
    (store.filter (priorPred em D) = [] →
        updatePreviousDayRealPrice store em D price = (store, none)) ∧
      (store.filter (priorPred em D) ≠ [] →
        ∃ r0, r0 ∈ store ∧ priorPred em D r0 = true ∧
          (∀ r2 ∈ store, priorPred em D r2 = true → r2 ≠ r0 →
            strLt r2.from_date r0.from_date = true) ∧
          (updatePreviousDayRealPrice store em D price).1 =
            store.map (fun r =>
              if r = r0 then { r with real_harga := some price } else r)) := by
  constructor
  · intro h
    unfold updatePreviousDayRealPrice
    rw [h]
    rfl
  · intro hne
    cases hs : List.insertionSort (fun a b => fromDateDescLe a b = true)
        (store.filter (priorPred em D)) with
    | nil =>
      exfalso
      have h0 := congrArg List.length hs
      rw [List.length_insertionSort] at h0
      simp only [List.length_nil, List.length_eq_zero] at h0
      exact hne h0
    | cons x rest =>
      obtain ⟨hxs, hpx, hmax⟩ := head_of_descSort_max (priorPred em D) store x rest hs
      refine ⟨x, hxs, hpx, ?_, ?_⟩
      · intro r2 h2 hp2 hneq
        have hle := hmax r2 h2 hp2
        cases hlt : strLt r2.from_date x.from_date with
        | true => rfl
        | false =>
          exfalso
          have hxr2 : strLt x.from_date r2.from_date = false := by
            have hb : (!(strLt x.from_date r2.from_date)) = true := hle
            simpa using hb
          have hfd : r2.from_date = x.from_date := str_eq_of_not_lt hlt hxr2
          have hp2s := hp2
          simp only [priorPred, Bool.and_eq_true, beq_iff_eq] at hp2s
          have hpxs := hpx
          simp only [priorPred, Bool.and_eq_true, beq_iff_eq] at hpxs
          have hkey : rowKey r2 = rowKey x := by
            simp [rowKey, hp2s.1.1, hpxs.1.1, hfd]
          exact hneq (List.inj_on_of_nodup_map hkeys h2 hxs hkey)
      · unfold updatePreviousDayRealPrice
        rw [hs]
        show store.map (fun r =>
            if r.id == x.id then { r with real_harga := some price } else r) =
          store.map (fun r => if r = x then { r with real_harga := some price } else r)
        refine List.map_congr_left ?_
        intro r hrm
        by_cases hid : r.id = x.id
        · have hre : r = x := List.inj_on_of_nodup_map hids hrm hxs hid
          simp [beq_iff_eq, hid, hre]
        · have hre : r ≠ x := fun e => hid (by rw [e])
          simp [beq_iff_eq, hid, hre]

/-- Witness for C8 on the fixture store: both the no-op branch and the
patch branch of the theorem, instantiated. -/
theorem patchPriorDay_frame_witness :
    (patchStore.filter (priorPred "BBCA" "2024-01-02") = [] →
        updatePreviousDayRealPrice patchStore "BBCA" "2024-01-02" 500 =
          (patchStore, none)) ∧
      (patchStore.filter (priorPred "BBCA" "2024-01-02") ≠ [] →
        ∃ r0, r0 ∈ patchStore ∧ priorPred "BBCA" "2024-01-02" r0 = true ∧
          (∀ r2 ∈ patchStore, priorPred "BBCA" "2024-01-02" r2 = true → r2 ≠ r0 →
            strLt r2.from_date r0.from_date = true) ∧
          (updatePreviousDayRealPrice patchStore "BBCA" "2024-01-02" 500).1 =
            patchStore.map (fun r =>
              if r = r0 then { r with real_harga := some 500 } else r)) :=
  patchPriorDay_frame patchStore "BBCA" "2024-01-02" 500
    (show (patchStore.map rowKey).Nodup by decide)
    (show (patchStore.map StockRow.id).Nodup by decide)

theorem upsertStockQuery_keys {store : List StockRow} {row : StockRow}
    (h : StockKeysUnique store) : StockKeysUnique (upsertStockQuery store row) := by
  unfold upsertStockQuery
  by_cases hc : store.any
      (fun r => r.from_date == row.from_date && r.emiten == row.emiten) = true
  · rw [if_pos hc]
    unfold StockKeysUnique at h ⊢
    rw [List.map_map]
    have he : store.map (rowKey ∘ fun r =>
        if r.from_date == row.from_date && r.emiten == row.emiten then
          { row with id := r.id } else r) = store.map rowKey := by
      refine List.map_congr_left ?_
      intro r hr
      by_cases hcr : (r.from_date == row.from_date && r.emiten == row.emiten) = true
      · have hcr2 := hcr
        simp only [Bool.and_eq_true, beq_iff_eq] at hcr2
        simp [Function.comp_apply, hcr, rowKey, hcr2.1, hcr2.2]
      · have hcr2 : ¬(r.from_date = row.from_date ∧ r.emiten = row.emiten) := by
          simpa [Bool.and_eq_true, beq_iff_eq] using hcr
        simp [Function.comp_apply, hcr2]
    rw [he]
    exact h
  · rw [if_neg hc]
    unfold StockKeysUnique at h ⊢
    rw [List.map_append]
    refine List.Nodup.append h (List.nodup_singleton _) ?_
    intro a ha hb
    simp only [List.map_cons, List.map_nil, List.mem_singleton] at hb
    rcases List.mem_map.mp ha with ⟨r, hrs, hrk⟩
    apply hc
    rw [List.any_eq_true]
    refine ⟨r, hrs, ?_⟩
    have hk : rowKey r = rowKey row := hrk.trans hb
    have h1 : r.emiten = row.emiten := congrArg Prod.fst hk
    have h2 : r.from_date = row.from_date := congrArg Prod.snd hk
    simp [h1, h2]

theorem upsertSession_keys {store : List SessionRow} {k v now : String}
    (h : SessionKeysUnique store) :
    SessionKeysUnique (upsertSession store k v now) := by
  unfold upsertSession
  by_cases hc : store.any (fun r => r.key == k) = true
  · rw [if_pos hc]
    unfold SessionKeysUnique at h ⊢
    rw [List.map_map]
    have he : store.map (SessionRow.key ∘ fun r =>
        if r.key == k then { key := k, value := v, updated_at := now } else r) =
        store.map SessionRow.key := by
      refine List.map_congr_left ?_
      intro r hr
      by_cases hcr : (r.key == k) = true
      · have e1 : r.key = k := by simpa using hcr
        simp [Function.comp_apply, hcr, e1]
      · have hcr2 : ¬ r.key = k := by simpa using hcr
        simp [Function.comp_apply, hcr2]
    rw [he]
    exact h
  · rw [if_neg hc]
    unfold SessionKeysUnique at h ⊢
    rw [List.map_append]
    refine List.Nodup.append h (List.nodup_singleton _) ?_
    intro a ha hb
    simp only [List.map_cons, List.map_nil, List.mem_singleton] at hb
    rcases List.mem_map.mp ha with ⟨r, hrs, hrk⟩
    apply hc
    rw [List.any_eq_true]
    refine ⟨r, hrs, ?_⟩
    simp [hrk.trans hb]

theorem updatePrev_keys {store : List StockRow} {em D : String} {price : Int}
    (h : StockKeysUnique store) :
    StockKeysUnique ((updatePreviousDayRealPrice store em D price).1) := by
  unfold updatePreviousDayRealPrice
  cases hs : List.insertionSort (fun a b => fromDateDescLe a b = true)
      (store.filter (priorPred em D)) with
  | nil =>
    exact h
  | cons x rest =>
    show StockKeysUnique (store.map (fun r =>
      if r.id == x.id then { r with real_harga := some price } else r))
    unfold StockKeysUnique at h ⊢
    rw [List.map_map]
    have he : store.map (rowKey ∘ fun r =>
        if r.id == x.id then { r with real_harga := some price } else r) =
        store.map rowKey := by
      refine List.map_congr_left ?_
      intro r hr
      by_cases hcr : (r.id == x.id) = true
      · have hid : r.id = x.id := by simpa using hcr
        simp [Function.comp_apply, hid, rowKey]
      · have hid : ¬ r.id = x.id := by simpa using hcr
        simp [Function.comp_apply, hid]
    rw [he]
    exact h

/-- C9: every write of the module is a keyed upsert or an update of an
existing row by id, so each one preserves the invariant of at most one
stock row per (emiten, from_date) and one session row per key. -/
theorem writes_preserve_key_uniqueness (store : List StockRow) (row : StockRow)
    (sess : List SessionRow) (k v now em D : String) (price : Int) :
    (StockKeysUnique store → StockKeysUnique (saveStockQuery store row)) ∧
      (StockKeysUnique store → StockKeysUnique (saveWatchlistAnalysis store row)) ∧
      (SessionKeysUnique sess → SessionKeysUnique (upsertSession sess k v now)) ∧
      (StockKeysUnique store →
        StockKeysUnique ((updatePreviousDayRealPrice store em D price).1)) :=
  ⟨fun h => upsertStockQuery_keys h, fun h => upsertStockQuery_keys h,
    fun h => upsertSession_keys h, fun h => updatePrev_keys h⟩

/-- Witness for C9 at concrete stores satisfying the invariants. -/
theorem writes_preserve_key_uniqueness_witness :
    StockKeysUnique (saveStockQuery patchStore (mkRow 9 "TLKM" "2024-01-05")) ∧
      StockKeysUnique (saveWatchlistAnalysis patchStore (mkRow 9 "TLKM" "2024-01-05")) ∧
      SessionKeysUnique (upsertSession demoSess "watchlist" "BBCA BBRI"
        "2024-01-02T00:00:00Z") ∧
      StockKeysUnique ((updatePreviousDayRealPrice patchStore "BBCA"
        "2024-01-02" 500).1) :=
  ⟨(writes_preserve_key_uniqueness patchStore (mkRow 9 "TLKM" "2024-01-05") demoSess
      "watchlist" "BBCA BBRI" "2024-01-02T00:00:00Z" "BBCA" "2024-01-02" 500).1
      (show (patchStore.map rowKey).Nodup by decide),
    (writes_preserve_key_uniqueness patchStore (mkRow 9 "TLKM" "2024-01-05") demoSess
      "watchlist" "BBCA BBRI" "2024-01-02T00:00:00Z" "BBCA" "2024-01-02" 500).2.1
      (show (patchStore.map rowKey).Nodup by decide),
    (writes_preserve_key_uniqueness patchStore (mkRow 9 "TLKM" "2024-01-05") demoSess
      "watchlist" "BBCA BBRI" "2024-01-02T00:00:00Z" "BBCA" "2024-01-02" 500).2.2.1
      (show (demoSess.map SessionRow.key).Nodup by decide),
    (writes_preserve_key_uniqueness patchStore (mkRow 9 "TLKM" "2024-01-05") demoSess
      "watchlist" "BBCA BBRI" "2024-01-02T00:00:00Z" "BBCA" "2024-01-02" 500).2.2.2
      (show (patchStore.map rowKey).Nodup by decide)⟩

end Adimology
